import Mathlib

/-!
Verification of the `stonkers` trading CLI against its natural-language
specification.  Each section shallowly embeds one component of the source
(Python) into Lean: strings are lists of characters, machine floats are
modelled by rationals, pandas frames by lists of association-list rows,
and the mutable object graph (where a claim is about mutation) by an
explicit heap of frames.  Theorems for the frozen claims follow the
definitions.
-/

set_option maxRecDepth 4000

namespace Stonkers

/-! ### Basic string machinery (Python `str` as `List Char`)

`splitFirst c l` models Python `l.split(c, 1)` when `c` occurs in `l`
(returning the parts left and right of the first occurrence) and `none`
when it does not.  `splitOnChar c l` models Python `l.split(c)`. -/

def splitFirst (c : Char) : List Char → Option (List Char × List Char)
  | [] => none
  | x :: xs =>
    if x = c then some ([], xs)
    else
      match splitFirst c xs with
      | none => none
      | some (a, b) => some (x :: a, b)

def splitOnChar (c : Char) (l : List Char) : List (List Char) :=
  l.foldr
    (fun x acc =>
      if x = c then [] :: acc
      else
        match acc with
        | [] => [[x]]
        | a :: rest => (x :: a) :: rest)
    [[]]

theorem splitFirst_eq_none_iff (c : Char) (l : List Char) :
    splitFirst c l = none ↔ c ∉ l := by
  induction l with
  | nil => simp [splitFirst]
  | cons x xs ih =>
    by_cases hx : x = c
    · subst hx
      simp [splitFirst]
    · rw [splitFirst]
      rw [if_neg hx]
      constructor
      · intro h
        cases hsf : splitFirst c xs with
        | none =>
          intro hmem
          rcases List.mem_cons.mp hmem with h1 | h2
          · exact hx h1.symm
          · exact (ih.mp hsf) h2
        | some p => rw [hsf] at h; cases h
      · intro hmem
        have hxs : c ∉ xs := fun h2 => hmem (List.mem_cons_of_mem _ h2)
        rw [ih.mpr hxs]

theorem splitFirst_append (c : Char) (a b : List Char) (ha : c ∉ a) :
    splitFirst c (a ++ c :: b) = some (a, b) := by
  induction a with
  | nil => simp [splitFirst]
  | cons x xs ih =>
    have hx : x ≠ c := fun h => ha (h ▸ List.mem_cons_self x xs)
    have hxs : c ∉ xs := fun h => ha (List.mem_cons_of_mem _ h)
    simp only [List.cons_append, splitFirst, if_neg hx]
    rw [show xs.append (c :: b) = xs ++ c :: b from rfl, ih hxs]

theorem splitFirst_eq_some (c : Char) (l a b : List Char)
    (h : splitFirst c l = some (a, b)) : l = a ++ c :: b ∧ c ∉ a := by
  induction l generalizing a with
  | nil => cases h
  | cons x xs ih =>
    rw [splitFirst] at h
    by_cases hx : x = c
    · rw [if_pos hx] at h
      cases h
      subst hx
      exact ⟨rfl, List.not_mem_nil _⟩
    · rw [if_neg hx] at h
      cases hsf : splitFirst c xs with
      | none => rw [hsf] at h; cases h
      | some p =>
        rw [hsf] at h
        cases h
        obtain ⟨h1, h2⟩ := ih p.1 hsf
        constructor
        · simp [h1]
        · intro hmem
          rcases List.mem_cons.mp hmem with h3 | h4
          · exact hx h3.symm
          · exact h2 h4

/-! ### Data Conversion Layer: the ticker-symbol grammar

From `src/stonkers/convert.py`, `parse_ticker`.  A symbol without `_` is
an equity; `U_REST` with exactly one underscore is an option whose
remainder is split on the first `P` (checked first) or `C` marker into
expiration and strike; anything else is unrecognised (`None`).
Python's `ticker.split("_")` having length 2 is rendered as: the part
after the first underscore contains no further underscore. -/

inductive ContractType
  | PUT
  | CALL
  deriving DecidableEq, Repr

inductive ParsedTicker
  | equity (symbol underlying : List Char)
  | option (underlying symbol expiration : List Char)
      (contractType : ContractType) (strike : List Char)
  deriving DecidableEq, Repr

def parse_ticker (t : List Char) : Option ParsedTicker :=
  if '_' ∉ t then some (.equity t t)
  else
    match splitFirst '_' t with
    | none => none
    | some (u, r) =>
      if '_' ∈ r then none
      else if 'P' ∈ r then
        match splitFirst 'P' r with
        | none => none
        | some (e, s) => some (.option u t e .PUT s)
      else if 'C' ∈ r then
        match splitFirst 'C' r with
        | none => none
        | some (e, s) => some (.option u t e .CALL s)
      else none

theorem count_pos_of_two_le {l : List Char} {c : Char} (h : 2 ≤ l.count c) :
    c ∈ l := by
  by_contra hmem
  rw [List.count_eq_zero_of_not_mem hmem] at h
  omega

/-- C3: `parse_ticker` maps any symbol with no underscore to an EQUITY record
whose symbol and underlying both equal the input; a symbol with exactly one
underscore splits into underlying and remainder, the remainder is checked for
a `P` marker before a `C` marker and split on the first occurrence of that
marker into expiration (left) and strike (right), yielding an OPTION record
with PUT resp. CALL contract type; any other shape (two or more underscores,
or a remainder containing neither marker) yields no result. -/
theorem parse_ticker_spec (t : List Char) :
    ('_' ∉ t → parse_ticker t = some (.equity t t)) ∧
    (∀ u r, t = u ++ '_' :: r → '_' ∉ u → '_' ∉ r →
      ((∀ e s, r = e ++ 'P' :: s → 'P' ∉ e →
          parse_ticker t = some (.option u t e .PUT s)) ∧
       ('P' ∉ r → ∀ e s, r = e ++ 'C' :: s → 'C' ∉ e →
          parse_ticker t = some (.option u t e .CALL s)) ∧
       ('P' ∉ r → 'C' ∉ r → parse_ticker t = none))) ∧
    (2 ≤ t.count '_' → parse_ticker t = none) := by
  refine ⟨fun h => by rw [parse_ticker, if_pos h], ?_, ?_⟩
  · intro u r ht hu hr
    have hmem : '_' ∈ t := by
      rw [ht]; exact List.mem_append_right u (List.mem_cons_self _ _)
    have hsplit : splitFirst '_' t = some (u, r) := ht ▸ splitFirst_append _ u r hu
    refine ⟨?_, ?_, ?_⟩
    · intro e s hre he
      have hp : 'P' ∈ r := by
        rw [hre]; exact List.mem_append_right e (List.mem_cons_self _ _)
      have hps : splitFirst 'P' r = some (e, s) := hre ▸ splitFirst_append _ e s he
      rw [parse_ticker, if_neg (by simpa using hmem), hsplit]
      simp only [if_neg (by simpa using hr), if_pos hp, hps]
    · intro hp e s hre he
      have hc : 'C' ∈ r := by
        rw [hre]; exact List.mem_append_right e (List.mem_cons_self _ _)
      have hcs : splitFirst 'C' r = some (e, s) := hre ▸ splitFirst_append _ e s he
      rw [parse_ticker, if_neg (by simpa using hmem), hsplit]
      simp only [if_neg (by simpa using hr), if_neg (by simpa using hp),
        if_pos hc, hcs]
    · intro hp hc
      rw [parse_ticker, if_neg (by simpa using hmem), hsplit]
      simp only [if_neg (by simpa using hr), if_neg (by simpa using hp),
        if_neg (by simpa using hc)]
  · intro h2
    have hmem : '_' ∈ t := count_pos_of_two_le h2
    rw [parse_ticker, if_neg (by simpa using hmem)]
    cases hsf : splitFirst '_' t with
    | none => rfl
    | some p =>
      obtain ⟨ht, hu⟩ := splitFirst_eq_some _ _ _ _ hsf
      have hcount : t.count '_' = p.2.count '_' + 1 := by
        rw [ht, List.count_append, List.count_cons_self,
          List.count_eq_zero_of_not_mem hu]
        omega
      have hr : '_' ∈ p.2 := by
        exact List.count_pos_iff.mp (by omega)
      simp only [if_pos hr]

/-- Witness for C3 at the spec's own examples `GME` and `GME_061624C20`. -/
theorem parse_ticker_spec_witness :
    parse_ticker ['G', 'M', 'E'] =
      some (.equity ['G', 'M', 'E'] ['G', 'M', 'E']) ∧
    parse_ticker
        ['G', 'M', 'E', '_', '0', '6', '1', '6', '2', '4', 'C', '2', '0'] =
      some (.option ['G', 'M', 'E']
        ['G', 'M', 'E', '_', '0', '6', '1', '6', '2', '4', 'C', '2', '0']
        ['0', '6', '1', '6', '2', '4'] .CALL ['2', '0']) := by
  constructor
  · exact (parse_ticker_spec ['G', 'M', 'E']).1 (by decide)
  · exact (((parse_ticker_spec
      ['G', 'M', 'E', '_', '0', '6', '1', '6', '2', '4', 'C', '2', '0']).2.1
      ['G', 'M', 'E'] ['0', '6', '1', '6', '2', '4', 'C', '2', '0']
      rfl (by decide) (by decide)).2.1 (by decide)
      ['0', '6', '1', '6', '2', '4'] ['2', '0'] rfl (by decide))

/-! ### Price Rule (`src/stonkers/commands/wheelie/price.py`)

A pandas `Series` (a quote, or one row of an options frame) is modelled as
an association list from field names to rationals; `rowGet` is `series[key]`
(`none` = `KeyError`), `rowHas` is `key in series`.  `market_price` follows
the source, including the preference of the short field names and the
short-circuit of Python's chained comparison `quote[bid] < quote[last] <
quote[ask]` (the ask field is only read when `quote[bid] < quote[last]`):
a missing looked-up field makes the whole call fail (`none`). -/

abbrev Row := List (List Char × ℚ)

def rowGet (r : Row) (k : List Char) : Option ℚ :=
  match r with
  | [] => none
  | (k', v) :: rest => if k' = k then some v else rowGet rest k

def rowHas (r : Row) (k : List Char) : Bool :=
  (rowGet r k).isSome

def bidKey : List Char := ['b', 'i', 'd']
def askKey : List Char := ['a', 's', 'k']
def lastKey : List Char := ['l', 'a', 's', 't']
def bidPriceKey : List Char := ['b', 'i', 'd', 'P', 'r', 'i', 'c', 'e']
def askPriceKey : List Char := ['a', 's', 'k', 'P', 'r', 'i', 'c', 'e']
def lastPriceKey : List Char := ['l', 'a', 's', 't', 'P', 'r', 'i', 'c', 'e']
def markKey : List Char := ['m', 'a', 'r', 'k']

def market_price (quote : Row) : Option ℚ :=
  let bid := if rowHas quote bidKey then bidKey else bidPriceKey
  let ask := if rowHas quote askKey then askKey else askPriceKey
  let last := if rowHas quote lastKey then lastKey else lastPriceKey
  match rowGet quote bid, rowGet quote last with
  | some bv, some lv =>
    if bv < lv then
      match rowGet quote ask with
      | some av => if lv < av then some lv else rowGet quote markKey
      | none => none
    else rowGet quote markKey
  | _, _ => none

/-- C4: `market_price(quote)` prefers the short field names `bid`/`ask`/`last`
over the long names `bidPrice`/`askPrice`/`lastPrice` whenever the short names
are present (first conjunct: the long values `bp`/`ap`/`lp` are arbitrary and
ignored); it returns the last-traded price exactly when that price lies
strictly between the bid and the ask, and the quote's `mark` field in every
other case.  The second conjunct shows the long names are used when the short
names are absent. -/
theorem market_price_spec (b a l m bp ap lp : ℚ) :
    market_price
        [(bidPriceKey, bp), (askPriceKey, ap), (lastPriceKey, lp),
         (bidKey, b), (askKey, a), (lastKey, l), (markKey, m)] =
      some (if b < l ∧ l < a then l else m) ∧
    market_price
        [(bidPriceKey, bp), (askPriceKey, ap), (lastPriceKey, lp),
         (markKey, m)] =
      some (if bp < lp ∧ lp < ap then lp else m) := by
  constructor
  · simp only [market_price, rowHas, rowGet, bidKey, askKey, lastKey,
      bidPriceKey, askPriceKey, lastPriceKey, markKey]
    norm_num
    by_cases h1 : b < l
    · by_cases h2 : l < a
      · simp [h1, h2]
      · simp [h1, h2]
    · simp [h1]
  · simp only [market_price, rowHas, rowGet, bidKey, askKey, lastKey,
      bidPriceKey, askPriceKey, lastPriceKey, markKey]
    norm_num
    by_cases h1 : bp < lp
    · by_cases h2 : lp < ap
      · simp [h1, h2]
      · simp [h1, h2]
    · simp [h1]

/-! ### Put Screener (`src/stonkers/commands/put_finder.py`)

`get_returns` and the `pop` column of `put_finder`.  Numpy/Python `round(x, 1)`
rounds half to even at one decimal place; floats are modelled by rationals. -/

def roundHalfEven (x : ℚ) : ℤ :=
  let f := ⌊x⌋
  let r := x - (f : ℚ)
  if r < 1 / 2 then f
  else if 1 / 2 < r then f + 1
  else if 2 ∣ f then f else f + 1

def round1 (x : ℚ) : ℚ := (roundHalfEven (10 * x) : ℚ) / 10

/-- `get_returns(bid, strike_price, dte)`: the per-row formula; the series
`dte.apply(lambda x: x if x > 0 else 1)` is the per-element divisor. -/
def get_returns (bid strike : ℚ) (dte : ℤ) : ℚ × ℚ :=
  let put_return := bid / (strike - bid) * 100
  let divisor : ℚ := if 0 < dte then (dte : ℚ) else 1
  let annual_return := put_return / divisor * 365
  (round1 put_return, round1 annual_return)

/-- `options["pop"] = (1 - options["delta"].abs()) * 100`, per row. -/
def pop (delta : ℚ) : ℚ := (1 - |delta|) * 100

/-- C5 counterexample: at `bid = 1`, `strikePrice = 20`, `dte = 30` the code's
`annualReturn` is `64.0` (the annualisation is applied to the UNROUNDED put
return `100/19` before the single final rounding), while the claim's formula
`round(putReturn / max(dte, 1) * 365, 1)` applied to the rounded
`putReturn = 5.3` yields `64.5`. -/
theorem get_returns_counterexample :
    (get_returns 1 20 30).1 = 53 / 10 ∧
    (get_returns 1 20 30).2 = 64 ∧
    round1 ((get_returns 1 20 30).1 / ((max (30 : ℤ) 1 : ℤ) : ℚ) * 365) =
      129 / 2 ∧
    (get_returns 1 20 30).2 ≠
      round1 ((get_returns 1 20 30).1 / ((max (30 : ℤ) 1 : ℤ) : ℚ) * 365) := by
  refine ⟨?_, ?_, ?_, ?_⟩ <;> norm_num [get_returns, round1, roundHalfEven]

/-- C5 amended: `putReturn = round(bid / (strikePrice - bid) * 100, 1)` and
`pop = (1 - |delta|) * 100` as claimed, but `annualReturn` is
`round(r / max(daysToExpiration, 1) * 365, 1)` computed from the UNROUNDED
put return `r = bid / (strikePrice - bid) * 100` (not from the rounded
`putReturn`); the divisor `max(daysToExpiration, 1)` is positive, so the
division never divides by zero or a negative number. -/
theorem get_returns_spec (bid strike : ℚ) (dte : ℤ) (delta : ℚ) :
    (get_returns bid strike dte).1 = round1 (bid / (strike - bid) * 100) ∧
    (get_returns bid strike dte).2 =
      round1 (bid / (strike - bid) * 100 / ((max dte 1 : ℤ) : ℚ) * 365) ∧
    (0 : ℚ) < ((max dte 1 : ℤ) : ℚ) ∧
    pop delta = (1 - |delta|) * 100 := by
  have hdiv : (if 0 < dte then (dte : ℚ) else 1) = ((max dte 1 : ℤ) : ℚ) := by
    by_cases h : 0 < dte
    · rw [if_pos h]
      congr 1
      omega
    · rw [if_neg h]
      have h1 : max dte 1 = 1 := by omega
      rw [h1]
      norm_num
  refine ⟨rfl, ?_, ?_, rfl⟩
  · simp only [get_returns, hdiv]
  · have h1 : (0 : ℤ) < max dte 1 := by
      have := le_max_right dte 1
      omega
    exact_mod_cast h1

/-! ### Portfolio Rebalancer (`src/stonkers/commands/rebalance.py`)

Vectors over symbols are `Fin n → ℚ`.  The baseline is
`shares = allocations * funds / prices`, entries `< 1` replaced by their
ceiling (`shares.update(np.ceil(shares[shares < 1]))`), then floored to
integers.  When the current portfolio value is positive the scipy SLSQP
solver refines the baseline; the solver itself is numerical third-party
code, so it is passed in as an oracle `solver` mapping the start vector to
`solution.x` — the guard on accepting its proposal
(`potential_cost > 0 and funds - potential_cost > 0`) is the code's. -/

def baselineShares {n : ℕ} (allocations : Fin n → ℚ) (funds : ℚ)
    (prices : Fin n → ℚ) : Fin n → ℤ := fun i =>
  let x := allocations i * funds / prices i
  if x < 1 then ⌈x⌉ else ⌊x⌋

def rebalance {n : ℕ} (solver : (Fin n → ℚ) → (Fin n → ℚ))
    (allocations : Fin n → ℚ) (funds : ℚ) (portfolio prices : Fin n → ℚ) :
    Fin n → ℤ :=
  let shares := baselineShares allocations funds prices
  if 0 < ∑ i, portfolio i * prices i then
    let sol := solver fun i => (shares i : ℚ)
    let potential_buy : Fin n → ℤ := fun i => ⌊sol i⌋
    let potential_cost := ∑ i, (potential_buy i : ℚ) * prices i
    if 0 < potential_cost ∧ 0 < funds - potential_cost then potential_buy
    else shares
  else shares

def planCost {n : ℕ} (plan : Fin n → ℤ) (prices : Fin n → ℚ) : ℚ :=
  ∑ i, (plan i : ℚ) * prices i

/-- C1 counterexample: allocations `(1/2, 1/2)` summing to exactly 1, positive
funds `10`, zero (hence non-negative) portfolio, positive prices `(9, 9)`.
Each baseline share count `5/9` is below one share and gets ceiled up to 1,
so the returned plan `(1, 1)` costs `18 > 10`: the total cost exceeds funds. -/
theorem rebalance_counterexample :
    (![(1 : ℚ) / 2, 1 / 2] 0 + ![(1 : ℚ) / 2, 1 / 2] 1 = 1) ∧
    (0 : ℚ) < 10 ∧
    (0 : ℚ) ≤ ![(0 : ℚ), 0] 0 ∧ (0 : ℚ) ≤ ![(0 : ℚ), 0] 1 ∧
    (0 : ℚ) < ![(9 : ℚ), 9] 0 ∧ (0 : ℚ) < ![(9 : ℚ), 9] 1 ∧
    planCost
        (rebalance (fun _ _ => 0) ![(1 : ℚ) / 2, 1 / 2] 10 ![(0 : ℚ), 0]
          ![(9 : ℚ), 9])
        ![(9 : ℚ), 9] = 18 ∧
    (10 : ℚ) < 18 := by
  have h59 : ⌈(5 : ℚ) / 9⌉ = 1 := by
    rw [Int.ceil_eq_iff]
    norm_num
  norm_num [planCost, rebalance, baselineShares, Fin.sum_univ_two, h59]

/-- C1 amended: under the claim's hypotheses (non-negative allocations summing
to at most 1, non-negative funds, positive prices), (a) any plan other than
the baseline — i.e. an optimizer proposal that replaced it — has total cost
strictly below `funds`, and (b) the baseline's total cost stays within `funds`
provided no symbol's raw share count `allocations*funds/prices` falls strictly
between 0 and 1 (the round-up-to-one-share rule applied to such a symbol is
exactly what can push the total above `funds`, as the counterexample shows). -/
theorem rebalance_funds_bound {n : ℕ} (solver : (Fin n → ℚ) → (Fin n → ℚ))
    (allocations : Fin n → ℚ) (funds : ℚ) (portfolio prices : Fin n → ℚ)
    (hp : ∀ i, 0 < prices i) (ha : ∀ i, 0 ≤ allocations i)
    (hs : ∑ i, allocations i ≤ 1) (hf : 0 ≤ funds) :
    (rebalance solver allocations funds portfolio prices =
        baselineShares allocations funds prices ∨
      planCost (rebalance solver allocations funds portfolio prices) prices <
        funds) ∧
    ((∀ i, allocations i * funds / prices i < 1 →
        allocations i * funds / prices i ≤ 0) →
      planCost (rebalance solver allocations funds portfolio prices) prices ≤
        funds) := by
  have hbase : ∀ h : (∀ i, allocations i * funds / prices i < 1 →
      allocations i * funds / prices i ≤ 0),
      planCost (baselineShares allocations funds prices) prices ≤ funds := by
    intro h
    have hle : ∀ i, ((baselineShares allocations funds prices i : ℚ)) ≤
        allocations i * funds / prices i := by
      intro i
      unfold baselineShares
      by_cases hx : allocations i * funds / prices i < 1
      · rw [if_pos hx]
        have hx0 : allocations i * funds / prices i ≤ 0 := h i hx
        have hx0' : 0 ≤ allocations i * funds / prices i := by
          apply div_nonneg _ (hp i).le
          exact mul_nonneg (ha i) hf
        have hxeq : allocations i * funds / prices i = 0 := le_antisymm hx0 hx0'
        rw [hxeq]
        norm_num
      · rw [if_neg hx]
        exact Int.floor_le _
    have hsum : planCost (baselineShares allocations funds prices) prices ≤
        ∑ i, allocations i * funds / prices i * prices i := by
      apply Finset.sum_le_sum
      intro i _
      exact mul_le_mul_of_nonneg_right (hle i) (hp i).le
    have heq : ∀ i, allocations i * funds / prices i * prices i =
        allocations i * funds := by
      intro i
      exact div_mul_cancel₀ _ (hp i).ne'
    calc planCost (baselineShares allocations funds prices) prices
        ≤ ∑ i, allocations i * funds / prices i * prices i := hsum
      _ = ∑ i, allocations i * funds := by simp only [heq]
      _ = (∑ i, allocations i) * funds := by rw [← Finset.sum_mul]
      _ ≤ 1 * funds := mul_le_mul_of_nonneg_right hs hf
      _ = funds := one_mul funds
  unfold rebalance
  by_cases h1 : 0 < ∑ i, portfolio i * prices i
  · rw [if_pos h1]
    set potential_buy : Fin n → ℤ := fun i =>
      ⌊solver (fun j => ((baselineShares allocations funds prices j : ℚ))) i⌋
    by_cases h2 : 0 < ∑ i, (potential_buy i : ℚ) * prices i ∧
        0 < funds - ∑ i, (potential_buy i : ℚ) * prices i
    · rw [if_pos h2]
      constructor
      · right
        have := h2.2
        unfold planCost
        linarith
      · intro _
        unfold planCost
        have := h2.2
        linarith
    · rw [if_neg h2]
      exact ⟨Or.inl rfl, hbase⟩
  · rw [if_neg h1]
    exact ⟨Or.inl rfl, hbase⟩

/-- Witness for C1's amended theorem: one symbol with allocation 1, funds 10,
price 2, empty portfolio — the raw share count is 5 ≥ 1, and the plan's cost
is within funds. -/
theorem rebalance_funds_bound_witness :
    (rebalance (fun _ _ => 0) (fun _ : Fin 1 => (1 : ℚ)) 10 (fun _ => 0)
        (fun _ => 2) =
        baselineShares (fun _ : Fin 1 => (1 : ℚ)) 10 (fun _ => 2) ∨
      planCost
          (rebalance (fun _ _ => 0) (fun _ : Fin 1 => (1 : ℚ)) 10 (fun _ => 0)
            (fun _ => 2)) (fun _ => 2) < 10) ∧
    ((∀ _i : Fin 1, (1 : ℚ) * 10 / 2 < 1 → (1 : ℚ) * 10 / 2 ≤ 0) →
      planCost
          (rebalance (fun _ _ => 0) (fun _ : Fin 1 => (1 : ℚ)) 10 (fun _ => 0)
            (fun _ => 2)) (fun _ => 2) ≤ 10) :=
  rebalance_funds_bound (fun _ _ => 0) (fun _ => 1) 10 (fun _ => 0) (fun _ => 2)
    (fun _ => by norm_num) (fun _ => by norm_num)
    (by simp) (by norm_num)

/-! ### Broker API Façade retry policy (`src/stonkers/client.py`)

`Client._get` is wrapped by `tenacity.retry(reraise=True,
retry=RetryHTTPTooManyRequests(), wait=tenacity.wait_combine(WaitRetryAfter(),
tenacity.wait_exponential(multiplier=0.2)), stop=tenacity.stop_after_attempt(5))`.
Semantics of the configured tenacity combinators: `wait_combine` SUMS its
component waits; `wait_exponential(multiplier=0.2)` yields
`0.2 * 2 ^ attempt_number` (attempt_number is 1 after the first failure);
`stop_after_attempt(5)` allows 5 attempts total and `reraise=True` re-raises
the last exception.  `WaitRetryAfter` reads the `retry-after` header (default
`"0"`), as integer seconds if it is all digits, else as an HTTP date whose
distance from now is clamped to be non-negative; a malformed date yields 0.
The call outcome stream is indexed by attempt number starting at 1. -/

inductive RetryAfterHeader
  | absent
  | digits (n : ℕ)
  | httpDate (delta : ℚ)
  | malformed
  deriving DecidableEq

def waitRetryAfter : RetryAfterHeader → ℚ
  | .absent => 0
  | .digits n => n
  | .httpDate d => max 0 d
  | .malformed => 0

def waitExponential (attempt : ℕ) : ℚ := 1 / 5 * 2 ^ attempt

inductive CallOutcome
  | ok (response : ℕ)
  | httpError (status : ℕ) (header : RetryAfterHeader)
  deriving DecidableEq

inductive RunResult
  | success (response : ℕ) (waits : List ℚ)
  | raised (status : ℕ) (waits : List ℚ)
  deriving DecidableEq

def prependWait (w : ℚ) : RunResult → RunResult
  | .success v ws => .success v (w :: ws)
  | .raised s ws => .raised s (w :: ws)

/-- The tenacity loop: run the attempt; a success returns immediately; an
HTTP-error outcome retries only when its status is 429 (otherwise the
exception propagates at once); after the 5th attempt the exception is
re-raised; before each retry the recorded wait is the SUM of the
`retry-after` delay and the exponential backoff for that attempt. -/
def retryGo (o : ℕ → CallOutcome) : ℕ → ℕ → RunResult
  | 0, _ => .raised 0 []
  | fuel + 1, attempt =>
    match o attempt with
    | .ok v => .success v []
    | .httpError s h =>
      if s = 429 then
        if fuel = 0 then .raised s []
        else
          prependWait (waitRetryAfter h + waitExponential attempt)
            (retryGo o fuel (attempt + 1))
      else .raised s []

def runRetry (o : ℕ → CallOutcome) : RunResult := retryGo o 5 1

/-! Reference formulation, written from the (amended) specification text:
the call stops at the first attempt in 1..5 whose outcome is not a 429
error (or at attempt 5 regardless); the waits before retries 2..k are
`retryAfterDelay(attempt j) + 0.2 * 2 ^ j` for `j = 1 .. k-1`. -/

def retryable : CallOutcome → Bool
  | .httpError s _ => s == 429
  | .ok _ => false

def stopIndex (o : ℕ → CallOutcome) : ℕ :=
  if ¬ retryable (o 1) then 1
  else if ¬ retryable (o 2) then 2
  else if ¬ retryable (o 3) then 3
  else if ¬ retryable (o 4) then 4
  else 5

def delayOf : CallOutcome → ℚ
  | .httpError _ h => waitRetryAfter h
  | .ok _ => 0

def specWaits (o : ℕ → CallOutcome) (k : ℕ) : List ℚ :=
  (List.range (k - 1)).map fun j => delayOf (o (j + 1)) + 1 / 5 * 2 ^ (j + 1)

def specRetry (o : ℕ → CallOutcome) : RunResult :=
  match o (stopIndex o) with
  | .ok v => .success v (specWaits o (stopIndex o))
  | .httpError s _ => .raised s (specWaits o (stopIndex o))

/-- C2 counterexample: the first attempt fails with HTTP 429 and a
`retry-after: 1` header, the second succeeds.  The code waits
`1 + 0.2·2¹ = 1.4` before the retry — the SUM of the header delay and the
exponential backoff — whereas the claim's "larger of (a) and (b)" gives
`max 1 0.4 = 1` (or `max 1 0.2 = 1` on the reading where the backoff starts
at 0.2 before doubling): the claimed wait differs from the code's. -/
theorem retry_wait_counterexample :
    runRetry (fun k => if k = 1 then .httpError 429 (.digits 1) else .ok 0) =
      .success 0 [7 / 5] ∧
    (7 / 5 : ℚ) ≠ max (waitRetryAfter (.digits 1)) (1 / 5 * 2 ^ 1) ∧
    (7 / 5 : ℚ) ≠ max (waitRetryAfter (.digits 1)) (1 / 5 * 2 ^ 0) := by
  refine ⟨?_, by norm_num [waitRetryAfter], by norm_num [waitRetryAfter]⟩
  norm_num [runRetry, retryGo, prependWait, waitRetryAfter, waitExponential]

/-- C2 amended: the retry loop `runRetry` (tenacity as configured on
`Client._get`) equals the reference policy `specRetry`: every outbound call
failing with HTTP 429 is retried up to 5 attempts total, the wait before the
(j+1)-th attempt being the SUM (not the maximum) of (a) the non-negative
delay derived from the `retry-after` header and (b) the exponential backoff
`0.2 · 2^j`; any other HTTP error status is raised immediately without retry,
and successful responses pass through unchanged.  The second conjunct is the
non-negativity of the header-derived delay. -/
theorem retry_policy_spec (o : ℕ → CallOutcome) :
    runRetry o = specRetry o ∧ ∀ h, 0 ≤ waitRetryAfter h := by
  constructor
  · unfold runRetry specRetry stopIndex
    rcases ho1 : o 1 with v1 | ⟨s1, h1⟩
    · simp [retryGo, ho1, retryable, specWaits]
    · by_cases hs1 : s1 = 429
      · subst hs1
        rcases ho2 : o 2 with v2 | ⟨s2, h2⟩
        · simp [retryGo, ho1, ho2, retryable, specWaits, prependWait, delayOf,
            waitExponential, List.range_succ]
        · by_cases hs2 : s2 = 429
          · subst hs2
            rcases ho3 : o 3 with v3 | ⟨s3, h3⟩
            · simp [retryGo, ho1, ho2, ho3, retryable, specWaits, prependWait,
                delayOf, waitExponential, List.range_succ]
            · by_cases hs3 : s3 = 429
              · subst hs3
                rcases ho4 : o 4 with v4 | ⟨s4, h4⟩
                · simp [retryGo, ho1, ho2, ho3, ho4, retryable, specWaits,
                    prependWait, delayOf, waitExponential, List.range_succ]
                · by_cases hs4 : s4 = 429
                  · subst hs4
                    rcases ho5 : o 5 with v5 | ⟨s5, h5⟩
                    · simp [retryGo, ho1, ho2, ho3, ho4, ho5, retryable,
                        specWaits, prependWait, delayOf, waitExponential,
                        List.range_succ]
                    · by_cases hs5 : s5 = 429 <;>
                        simp [retryGo, ho1, ho2, ho3, ho4, ho5, retryable,
                          hs5, specWaits, prependWait, delayOf,
                          waitExponential, List.range_succ]
                  · simp [retryGo, ho1, ho2, ho3, ho4, retryable, hs4,
                      specWaits, prependWait, delayOf, waitExponential,
                      List.range_succ]
              · simp [retryGo, ho1, ho2, ho3, retryable, hs3, specWaits,
                  prependWait, delayOf, waitExponential, List.range_succ]
          · simp [retryGo, ho1, ho2, retryable, hs2, specWaits, prependWait,
              delayOf, waitExponential, List.range_succ]
      · simp [retryGo, ho1, retryable, hs1, specWaits]
  · intro h
    cases h with
    | absent => norm_num [waitRetryAfter]
    | digits n => simp [waitRetryAfter]
    | httpDate d => simp [waitRetryAfter, le_max_left]
    | malformed => norm_num [waitRetryAfter]

/-! ### Trending-Ticker Source (`src/stonkers/cli.py`, `ThetaGang.trending`)

```
request = httpx.get(url, timeout=5)
try:
    request.raise_for_status()
except httpx.HTTPError:
    return []
return request.json().get("data", {}).get("trends", [])
```

The GET either fails at transport level (connection error / timeout — the
`httpx.get` call itself raises, OUTSIDE the `try` block) or yields a response
with a status code and a JSON body.  `raise_for_status` raises for any
non-2xx status; that exception is caught and mapped to `[]`.  The body is
modelled by its two optional keys. -/

structure TrendsBody where
  dataField : Option (Option (List (List Char)))
  deriving DecidableEq

inductive HttpResult
  | transportError
  | response (status : ℕ) (body : TrendsBody)

/-- `.error ()` models an exception propagating out of `trending`. -/
def trending : HttpResult → Except Unit (List (List Char))
  | .transportError => .error ()
  | .response status body =>
    if 200 ≤ status ∧ status < 300 then
      .ok ((body.dataField.getD none).getD [])
    else
      .ok []

/-- C8 counterexample: an HTTP-level transport failure of the GET request
(connection error or timeout) is raised by `httpx.get` outside the
`try`/`except` block, so `trending()` propagates the exception instead of
returning an empty list, contradicting the claim that every HTTP-level
failure yields `[]`. -/
theorem trending_counterexample :
    trending .transportError = .error () ∧
    ∀ l, trending .transportError ≠ .ok l := by
  exact ⟨rfl, fun l h => by cases h⟩

/-- C8 amended: `trending()` issues one GET (5-time-unit timeout, no retry);
when a response arrives, every non-success (non-2xx) status yields the empty
list rather than raising, and a successful response yields the `data.trends`
array of the JSON body (the empty list when either key is absent); a
transport-level failure of the GET itself, however, propagates as an
exception. -/
theorem trending_spec (status : ℕ) (body : TrendsBody) :
    (¬ (200 ≤ status ∧ status < 300) →
      trending (.response status body) = .ok []) ∧
    (200 ≤ status ∧ status < 300 →
      (body.dataField = none → trending (.response status body) = .ok []) ∧
      (body.dataField = some none →
        trending (.response status body) = .ok []) ∧
      (∀ trends, body.dataField = some (some trends) →
        trending (.response status body) = .ok trends)) ∧
    trending .transportError = .error () := by
  refine ⟨fun h => by simp [trending, h], fun h => ⟨?_, ?_, ?_⟩, rfl⟩
  · intro hd
    simp [trending, h, hd]
  · intro hd
    simp [trending, h, hd]
  · intro trends hd
    simp [trending, h, hd]

/-- Witness for C8's amended theorem at status 404 (empty list) and status
200 with a one-symbol trends array. -/
theorem trending_spec_witness :
    (¬ (200 ≤ 404 ∧ 404 < 300) →
      trending (.response 404 ⟨some (some [['G', 'M', 'E']])⟩) = .ok []) ∧
    ((200 ≤ 404 ∧ 404 < 300) →
      ((⟨some (some [['G', 'M', 'E']])⟩ : TrendsBody).dataField = none →
        trending (.response 404 ⟨some (some [['G', 'M', 'E']])⟩) = .ok []) ∧
      ((⟨some (some [['G', 'M', 'E']])⟩ : TrendsBody).dataField = some none →
        trending (.response 404 ⟨some (some [['G', 'M', 'E']])⟩) = .ok []) ∧
      (∀ trends,
        (⟨some (some [['G', 'M', 'E']])⟩ : TrendsBody).dataField =
          some (some trends) →
        trending (.response 404 ⟨some (some [['G', 'M', 'E']])⟩) =
          .ok trends)) ∧
    trending .transportError = .error () :=
  trending_spec 404 ⟨some (some [['G', 'M', 'E']])⟩

/-! ### WheelConfig parsing (`src/stonkers/commands/wheelie/config.py`)

`WheelConfig.parse` splits `TICKER[:key=value...]` on `:`, each option on
`=` (exactly one `=` allowed), looks the key up in
`get_type_hints(WheelConfig)` — which contains ALL SIX annotated dataclass
fields, `ticker : str` included — and casts the value with the hinted type,
re-raising a conversion failure as a `ValueError`.  Python `float()`/`int()`
are modelled on plain decimal literals (optional sign, digits, one decimal
point for floats); exponents/`inf`/`nan`/whitespace are outside the model. -/

def digitVal (c : Char) : Option ℕ :=
  if '0' ≤ c ∧ c ≤ '9' then some (c.toNat - '0'.toNat) else none

def parseDigits : List Char → Option ℕ
  | [] => none
  | l => l.foldlM (fun acc c => (digitVal c).map fun d => acc * 10 + d) 0

def pyInt : List Char → Option ℤ
  | [] => none
  | c :: rest =>
    if c = '-' then (parseDigits rest).map fun n => -(n : ℤ)
    else if c = '+' then (parseDigits rest).map fun n => (n : ℤ)
    else (parseDigits (c :: rest)).map fun n => (n : ℤ)

def pyFloatMag (l : List Char) : Option ℚ :=
  match splitFirst '.' l with
  | none => (parseDigits l).map fun n => (n : ℚ)
  | some (a, b) =>
    if a.isEmpty && b.isEmpty then none
    else
      match (if a.isEmpty then some 0 else parseDigits a),
          (if b.isEmpty then some 0 else parseDigits b) with
      | some ip, some fp => some ((ip : ℚ) + (fp : ℚ) / 10 ^ b.length)
      | _, _ => none

def pyFloat : List Char → Option ℚ
  | [] => none
  | c :: rest =>
    if c = '-' then (pyFloatMag rest).map Neg.neg
    else if c = '+' then pyFloatMag rest
    else pyFloatMag (c :: rest)

structure WheelConfig where
  ticker : List Char
  max_contracts_percent : ℚ := 1 / 20
  min_contract_price : ℚ := 1 / 20
  sigma : ℚ := 1 / 10
  std_dev_window : ℤ := 35
  weight : ℚ := 1 / 5
  deriving DecidableEq

inductive ConfigError
  | unknownKey (key : List Char)
  | badValue (key value : List Char)
  | badPair (opt : List Char)
  deriving DecidableEq

def tickerKey : List Char := ['t', 'i', 'c', 'k', 'e', 'r']
def maxContractsPercentKey : List Char :=
  ['m', 'a', 'x', '_', 'c', 'o', 'n', 't', 'r', 'a', 'c', 't', 's', '_',
   'p', 'e', 'r', 'c', 'e', 'n', 't']
def minContractPriceKey : List Char :=
  ['m', 'i', 'n', '_', 'c', 'o', 'n', 't', 'r', 'a', 'c', 't', '_',
   'p', 'r', 'i', 'c', 'e']
def sigmaKey : List Char := ['s', 'i', 'g', 'm', 'a']
def stdDevWindowKey : List Char :=
  ['s', 't', 'd', '_', 'd', 'e', 'v', '_', 'w', 'i', 'n', 'd', 'o', 'w']
def weightKey : List Char := ['w', 'e', 'i', 'g', 'h', 't']

/-- One `key=value` override: key lookup in the annotated fields (all six,
`ticker` included), then the cast with the field's hinted type. -/
def applyOption (cfg : WheelConfig) (key value : List Char) :
    Except ConfigError WheelConfig :=
  if key = tickerKey then .ok { cfg with ticker := value }
  else if key = maxContractsPercentKey then
    match pyFloat value with
    | some v => .ok { cfg with max_contracts_percent := v }
    | none => .error (.badValue key value)
  else if key = minContractPriceKey then
    match pyFloat value with
    | some v => .ok { cfg with min_contract_price := v }
    | none => .error (.badValue key value)
  else if key = sigmaKey then
    match pyFloat value with
    | some v => .ok { cfg with sigma := v }
    | none => .error (.badValue key value)
  else if key = stdDevWindowKey then
    match pyInt value with
    | some v => .ok { cfg with std_dev_window := v }
    | none => .error (.badValue key value)
  else if key = weightKey then
    match pyFloat value with
    | some v => .ok { cfg with weight := v }
    | none => .error (.badValue key value)
  else .error (.unknownKey key)

def WheelConfig.parse (s : List Char) : Except ConfigError WheelConfig :=
  let options := splitOnChar ':' s
  let symbol := options.headD []
  options.tail.foldlM
    (fun cfg opt =>
      match splitOnChar '=' opt with
      | [key, value] => applyOption cfg key value
      | _ => .error (.badPair opt))
    { ticker := symbol }

theorem splitOnChar_not_mem {c : Char} {l : List Char} (h : c ∉ l) :
    splitOnChar c l = [l] := by
  induction l with
  | nil => rfl
  | cons x xs ih =>
    have hx : x ≠ c := fun hc => h (hc ▸ List.mem_cons_self x xs)
    have hxs : c ∉ xs := fun hc => h (List.mem_cons_of_mem _ hc)
    simp only [splitOnChar, List.foldr_cons] at *
    rw [ih hxs, if_neg hx]

theorem splitOnChar_append {c : Char} (a b : List Char) (ha : c ∉ a) :
    splitOnChar c (a ++ c :: b) = a :: splitOnChar c b := by
  induction a with
  | nil => simp [splitOnChar]
  | cons x xs ih =>
    have hx : x ≠ c := fun hc => ha (hc ▸ List.mem_cons_self x xs)
    have hxs : c ∉ xs := fun hc => ha (List.mem_cons_of_mem _ hc)
    have hcons : splitOnChar c ((x :: xs) ++ c :: b) =
        (if x = c then [] :: splitOnChar c (xs ++ c :: b)
         else
           match splitOnChar c (xs ++ c :: b) with
           | [] => [[x]]
           | a :: rest => (x :: a) :: rest) := rfl
    rw [hcons, if_neg hx, ih hxs]

/-- C7 counterexample: `parse("GME:ticker=AMC")` succeeds (returning a config
with ticker `AMC` and all defaults) even though `ticker` is not one of the
five recognized keys listed by the claim — `get_type_hints` exposes all six
annotated dataclass fields, so `ticker` is accepted as an override key
instead of raising an invalid-configuration error. -/
theorem wheelconfig_parse_counterexample :
    WheelConfig.parse
        ['G', 'M', 'E', ':', 't', 'i', 'c', 'k', 'e', 'r', '=',
         'A', 'M', 'C'] =
      .ok { ticker := ['A', 'M', 'C'] } ∧
    tickerKey ≠ maxContractsPercentKey ∧ tickerKey ≠ minContractPriceKey ∧
    tickerKey ≠ sigmaKey ∧ tickerKey ≠ stdDevWindowKey ∧
    tickerKey ≠ weightKey := by
  exact ⟨rfl, by decide, by decide, by decide, by decide, by decide⟩

/-- C7 amended: `WheelConfig.parse` of `TICKER:key=value:...` raises an
invalid-configuration error for every pair whose key is not one of the SIX
annotated field names (`ticker`, `max_contracts_percent`,
`min_contract_price`, `sigma`, `std_dev_window`, `weight` — the claim's five
plus `ticker`, which is accepted with a never-failing string cast) and for
every value that cannot be converted to the key's type; otherwise it returns
a config carrying the given overrides and the documented defaults
(0.05, 0.05, 0.1, 35, 0.2) for unspecified keys. -/
theorem wheelconfig_parse_spec :
    (∀ sym : List Char, ':' ∉ sym →
      WheelConfig.parse sym = .ok { ticker := sym }) ∧
    (∀ sym key value : List Char, ':' ∉ sym → ':' ∉ key → '=' ∉ key →
      ':' ∉ value → '=' ∉ value →
      WheelConfig.parse (sym ++ ':' :: (key ++ '=' :: value)) =
        applyOption { ticker := sym } key value) ∧
    (∀ cfg key value, key ≠ tickerKey → key ≠ maxContractsPercentKey →
      key ≠ minContractPriceKey → key ≠ sigmaKey → key ≠ stdDevWindowKey →
      key ≠ weightKey →
      applyOption cfg key value = .error (.unknownKey key)) ∧
    (∀ cfg value, pyFloat value = none →
      applyOption cfg maxContractsPercentKey value =
          .error (.badValue maxContractsPercentKey value) ∧
        applyOption cfg minContractPriceKey value =
          .error (.badValue minContractPriceKey value) ∧
        applyOption cfg sigmaKey value =
          .error (.badValue sigmaKey value) ∧
        applyOption cfg weightKey value =
          .error (.badValue weightKey value)) ∧
    (∀ cfg value, pyInt value = none →
      applyOption cfg stdDevWindowKey value =
        .error (.badValue stdDevWindowKey value)) ∧
    (∀ cfg value, applyOption cfg tickerKey value =
      .ok { cfg with ticker := value }) ∧
    (∀ cfg value q, pyFloat value = some q →
      applyOption cfg maxContractsPercentKey value =
          .ok { cfg with max_contracts_percent := q } ∧
        applyOption cfg minContractPriceKey value =
          .ok { cfg with min_contract_price := q } ∧
        applyOption cfg sigmaKey value = .ok { cfg with sigma := q } ∧
        applyOption cfg weightKey value = .ok { cfg with weight := q }) ∧
    (∀ cfg value z, pyInt value = some z →
      applyOption cfg stdDevWindowKey value =
        .ok { cfg with std_dev_window := z }) ∧
    (∀ sym : List Char,
      ({ ticker := sym } : WheelConfig).max_contracts_percent = 1 / 20 ∧
      ({ ticker := sym } : WheelConfig).min_contract_price = 1 / 20 ∧
      ({ ticker := sym } : WheelConfig).sigma = 1 / 10 ∧
      ({ ticker := sym } : WheelConfig).std_dev_window = 35 ∧
      ({ ticker := sym } : WheelConfig).weight = 1 / 5) := by
  refine ⟨?_, ?_, ?_, ?_, ?_, ?_, ?_, ?_, fun sym => ⟨rfl, rfl, rfl, rfl, rfl⟩⟩
  · intro sym hsym
    unfold WheelConfig.parse
    rw [splitOnChar_not_mem hsym]
    rfl
  · intro sym key value hsym hk1 hk2 hv1 hv2
    have hkv : ':' ∉ key ++ '=' :: value := by
      intro h
      rcases List.mem_append.mp h with h | h
      · exact hk1 h
      · rcases List.mem_cons.mp h with h | h
        · cases h
        · exact hv1 h
    unfold WheelConfig.parse
    rw [splitOnChar_append sym _ hsym, splitOnChar_not_mem hkv]
    simp only [List.headD_cons, List.tail_cons, List.foldlM_cons,
      List.foldlM_nil]
    rw [splitOnChar_append key value hk2, splitOnChar_not_mem hv2]
    exact bind_pure (applyOption { ticker := sym } key value)
  · intro cfg key value h1 h2 h3 h4 h5 h6
    unfold applyOption
    rw [if_neg h1, if_neg h2, if_neg h3, if_neg h4, if_neg h5, if_neg h6]
  · intro cfg value h
    refine ⟨?_, ?_, ?_, ?_⟩ <;>
      · unfold applyOption
        simp +decide [h]
  · intro cfg value h
    unfold applyOption
    simp +decide [h]
  · intro cfg value
    rfl
  · intro cfg value q h
    refine ⟨?_, ?_, ?_, ?_⟩ <;>
      · unfold applyOption
        simp +decide [h]
  · intro cfg value z h
    unfold applyOption
    simp +decide [h]

/-- Witness for C7's amended theorem: a bare ticker gets all defaults, and a
single `sigma=0.2` override reduces to `applyOption`. -/
theorem wheelconfig_parse_spec_witness :
    WheelConfig.parse ['G', 'M', 'E'] =
      .ok { ticker := ['G', 'M', 'E'] } ∧
    WheelConfig.parse
        (['G', 'M', 'E'] ++ ':' :: (sigmaKey ++ '=' :: ['0', '.', '2'])) =
      applyOption { ticker := ['G', 'M', 'E'] } sigmaKey ['0', '.', '2'] :=
  ⟨wheelconfig_parse_spec.1 ['G', 'M', 'E'] (by decide),
   wheelconfig_parse_spec.2.1 ['G', 'M', 'E'] sigmaKey ['0', '.', '2']
     (by decide) (by decide) (by decide) (by decide) (by decide)⟩

/-! ### Positions aggregate and per-ticker counts
(`src/stonkers/commands/wheelie/ticker.py`, `positions.py`)

`count_positions` returns 0 for a missing or empty frame and otherwise
`np.abs(longQuantity.sum() - shortQuantity.sum())`.  `Positions.calls/puts`
return `None` when the ticker has no option positions at all, else the
ticker's option rows filtered by contract type; `Positions.shares` likewise
for equity rows. -/

inductive AssetType
  | EQUITY
  | OPTION
  deriving DecidableEq

structure PosRow where
  underlying : List Char
  assetType : AssetType
  contract_type : Option ContractType
  longQuantity : ℚ
  shortQuantity : ℚ
  deriving DecidableEq

def count_positions : Option (List PosRow) → ℚ
  | none => 0
  | some l =>
    if l.isEmpty then 0
    else |(l.map PosRow.longQuantity).sum - (l.map PosRow.shortQuantity).sum|

def optionRows (ps : List PosRow) : List PosRow :=
  ps.filter fun p => p.assetType == .OPTION

def equityRows (ps : List PosRow) : List PosRow :=
  ps.filter fun p => p.assetType == .EQUITY

def optionPositionsFor (ps : List PosRow) (t : List Char)
    (ct : ContractType) : Option (List PosRow) :=
  let rows := (optionRows ps).filter fun p => p.underlying == t
  if rows.isEmpty then none
  else some (rows.filter fun p => p.contract_type == some ct)

def sharesPositionsFor (ps : List PosRow) (t : List Char) :
    Option (List PosRow) :=
  let rows := (equityRows ps).filter fun p => p.underlying == t
  if rows.isEmpty then none else some rows

def Ticker.num_calls (ps : List PosRow) (t : List Char) : ℚ :=
  count_positions (optionPositionsFor ps t .CALL)

def Ticker.num_puts (ps : List PosRow) (t : List Char) : ℚ :=
  count_positions (optionPositionsFor ps t .PUT)

def Ticker.num_shares (ps : List PosRow) (t : List Char) : ℚ :=
  count_positions (sharesPositionsFor ps t)

/-- Long and short quantities of a row exchanged (a net-long position turned
into an equally sized net-short one). -/
def swapLS (p : PosRow) : PosRow :=
  { p with longQuantity := p.shortQuantity, shortQuantity := p.longQuantity }

/-! ### Wheel decision engine (`src/stonkers/commands/wheelie/wheel.py`)

One `WheelState` carries the per-run inputs of a `Wheel`: the ticker's
market and close price, `Wheel.target_buying_power` (account target buying
power × config weight), the config's `max_contracts_percent`, the three
position counts, the volatility threshold (its float `exp`/`log`/`std`
computation abstracted into an input), whether an order was already entered
today, and the outcome of `conditions.best` on the put side (`none` = no
candidate).  Python `int()` truncation toward zero is `ratTrunc`. -/

def ratTrunc (q : ℚ) : ℤ := if 0 ≤ q then ⌊q⌋ else ⌈q⌉

structure WheelState where
  price : ℚ
  close : ℚ
  target_buying_power : ℚ
  max_contracts_percent : ℚ
  num_shares : ℚ
  num_puts : ℚ
  num_calls : ℚ
  write_threshold : ℚ
  had_order_today : Bool
  best_put : Option ℚ
  deriving DecidableEq

/-- `int(np.floor(tbp / price / 100) * 100)` — round down to a full lot. -/
def Wheel.target_shares (w : WheelState) : ℤ :=
  ⌊w.target_buying_power / w.price / 100⌋ * 100

/-- `int(np.floor(target_shares - num_shares - num_puts * 100))`. -/
def Wheel.net_target_shares (w : WheelState) : ℤ :=
  ⌊(Wheel.target_shares w : ℚ) - w.num_shares - w.num_puts * 100⌋

/-- `int(np.floor(num_shares / 100) - num_calls)` — `int()` truncates. -/
def Wheel.net_target_calls (w : WheelState) : ℤ :=
  ratTrunc ((⌊w.num_shares / 100⌋ : ℚ) - w.num_calls)

/-- `int(np.floor(target_shares / 100) - num_puts)` — `int()` truncates. -/
def Wheel.net_target_puts (w : WheelState) : ℤ :=
  ratTrunc ((⌊(Wheel.target_shares w : ℚ) / 100⌋ : ℚ) - w.num_puts)

def Wheel.has_shares (w : WheelState) : Bool := decide (0 < w.num_shares)

def Wheel.has_excess_shares (w : WheelState) : Bool :=
  if Wheel.has_shares w then decide (Wheel.net_target_shares w < 0) else false

def Wheel.has_excess_puts (w : WheelState) : Bool :=
  decide (Wheel.net_target_puts w < 0)

def Wheel.excess_shares (w : WheelState) : ℤ :=
  |⌊(Wheel.target_shares w : ℚ) - w.num_shares⌋|

def Wheel.excess_puts (w : WheelState) : ℤ :=
  if Wheel.has_excess_puts w then |Wheel.net_target_puts w| else 0

/-- `max([1, round((tbp · max_contracts_percent / price) // 100)])`. -/
def Wheel.maximum_new_contracts (w : WheelState) : ℤ :=
  max 1 ⌊w.target_buying_power * w.max_contracts_percent / w.price / 100⌋

def Wheel.to_write_puts (w : WheelState) : ℤ :=
  if Wheel.net_target_puts w < 0 then 0
  else min (Wheel.maximum_new_contracts w) (Wheel.net_target_puts w)

def Wheel.is_red (w : WheelState) : Bool := decide (w.price < w.close)

def Wheel.change (w : WheelState) : ℚ := |w.price - w.close|

inductive PutsDecision
  | warnExcessShares (count : ℤ)
  | warnExcessPuts (count : ℤ)
  | skipNegativeNetTargetShares
  | skipNotRed
  | skipChangeBelowThreshold
  | skipNoPutsToWrite
  | skipAlreadyWroteToday
  | skipNoOptionsMeetConditions
  | write (candidate : ℚ) (contracts : ℤ)
  deriving DecidableEq

/-- The `Wheel.write_puts` guard sequence, in source order; a `write`
outcome is the only one that records an `Option` recommendation. -/
def write_puts (w : WheelState) : PutsDecision :=
  if Wheel.has_excess_shares w then .warnExcessShares (Wheel.excess_shares w)
  else if Wheel.has_excess_puts w then .warnExcessPuts (Wheel.excess_puts w)
  else if Wheel.net_target_shares w < 0 then .skipNegativeNetTargetShares
  else if ¬ Wheel.is_red w then .skipNotRed
  else if Wheel.change w < w.write_threshold then .skipChangeBelowThreshold
  else if Wheel.to_write_puts w = 0 then .skipNoPutsToWrite
  else if w.had_order_today then .skipAlreadyWroteToday
  else
    match w.best_put with
    | none => .skipNoOptionsMeetConditions
    | some c => .write c (Wheel.to_write_puts w)

/-- C6 counterexample: a Wheel holding 100 shares with zero target buying
power has `net_target_shares = -100 < 0`, the underlying is red
(price 50 < close 100) and the change (50) exceeds the write threshold (1) —
yet `write_puts` stops at the FIRST check with the excess-shares warning, not
with the "net target shares is negative" skip reason the claim requires for
every Wheel with negative `net_target_shares`. -/
theorem write_puts_counterexample :
    Wheel.net_target_shares ⟨50, 100, 0, 1 / 20, 100, 0, 0, 1, false, some 1⟩
        < 0 ∧
    Wheel.is_red ⟨50, 100, 0, 1 / 20, 100, 0, 0, 1, false, some 1⟩ = true ∧
    (1 : ℚ) <
      Wheel.change ⟨50, 100, 0, 1 / 20, 100, 0, 0, 1, false, some 1⟩ ∧
    write_puts ⟨50, 100, 0, 1 / 20, 100, 0, 0, 1, false, some 1⟩ =
      .warnExcessShares 100 ∧
    write_puts ⟨50, 100, 0, 1 / 20, 100, 0, 0, 1, false, some 1⟩ ≠
      .skipNegativeNetTargetShares := by
  refine ⟨?_, ?_, ?_, ?_, ?_⟩ <;>
    · norm_num [write_puts, Wheel.has_excess_shares, Wheel.has_shares,
        Wheel.net_target_shares, Wheel.target_shares, Wheel.excess_shares,
        Wheel.is_red, Wheel.change]
      try decide

/-- C6 amended: for every Wheel with negative `net_target_shares`, once the
two checks that precede it in the source (excess shares, excess puts) do not
fire, `write_puts` stops with the "net target shares is negative" skip reason
— regardless of `is_red`, the change/threshold comparison, today's orders or
the candidate chain, i.e. the check does precede the red and threshold
checks; and in every case with negative `net_target_shares` (whichever of
the three early guards fires) no Option recommendation is recorded. -/
theorem write_puts_spec (w : WheelState)
    (hneg : Wheel.net_target_shares w < 0) :
    (¬ Wheel.has_excess_shares w → ¬ Wheel.has_excess_puts w →
      write_puts w = .skipNegativeNetTargetShares) ∧
    ∀ c n, write_puts w ≠ .write c n := by
  constructor
  · intro h1 h2
    simp only [write_puts, Bool.not_eq_true] at *
    rw [h1, h2]
    simp [hneg]
  · intro c n
    unfold write_puts
    by_cases h1 : Wheel.has_excess_shares w
    · simp [h1]
    · by_cases h2 : Wheel.has_excess_puts w
      · simp [h1, h2]
      · simp [h1, h2, hneg]

/-- Witness for C6's amended theorem: zero shares held, fractional net-short
put count 1.5 against a one-lot target — `net_target_shares = -50 < 0` while
neither excess check fires, so the recorded reason is exactly the negative
net-target-shares skip, and no Option is recorded. -/
theorem write_puts_spec_witness :
    ((¬ Wheel.has_excess_shares
          ⟨100, 100, 10000, 1 / 20, 0, 3 / 2, 0, 0, false, none⟩ →
        ¬ Wheel.has_excess_puts
            ⟨100, 100, 10000, 1 / 20, 0, 3 / 2, 0, 0, false, none⟩ →
        write_puts ⟨100, 100, 10000, 1 / 20, 0, 3 / 2, 0, 0, false, none⟩ =
          .skipNegativeNetTargetShares) ∧
      ∀ c n,
        write_puts ⟨100, 100, 10000, 1 / 20, 0, 3 / 2, 0, 0, false, none⟩ ≠
          .write c n) ∧
    write_puts ⟨100, 100, 10000, 1 / 20, 0, 3 / 2, 0, 0, false, none⟩ =
      .skipNegativeNetTargetShares := by
  have hneg : Wheel.net_target_shares
      ⟨100, 100, 10000, 1 / 20, 0, 3 / 2, 0, 0, false, none⟩ < 0 := by
    norm_num [Wheel.net_target_shares, Wheel.target_shares]
  refine ⟨write_puts_spec _ hneg, ?_⟩
  exact (write_puts_spec _ hneg).1
    (by
      norm_num [Wheel.has_excess_shares, Wheel.has_shares])
    (by
      have hc : ⌈(-(1 / 2) : ℚ)⌉ = 0 := by
        rw [Int.ceil_eq_iff]
        norm_num
      norm_num [Wheel.has_excess_puts, Wheel.net_target_puts, ratTrunc,
        Wheel.target_shares, hc])

/-- A `Wheel` built over the `Positions` aggregate: the three count fields
are exactly `Ticker.num_shares/num_puts/num_calls` of the aggregate. -/
def mkWheelState (ps : List PosRow) (t : List Char)
    (price close tbp mcp threshold : ℚ) (today : Bool) (best : Option ℚ) :
    WheelState :=
  { price := price, close := close, target_buying_power := tbp,
    max_contracts_percent := mcp,
    num_shares := Ticker.num_shares ps t,
    num_puts := Ticker.num_puts ps t,
    num_calls := Ticker.num_calls ps t,
    write_threshold := threshold, had_order_today := today, best_put := best }

theorem isEmpty_map {α β : Type} (f : α → β) (l : List α) :
    (l.map f).isEmpty = l.isEmpty := by
  cases l <;> rfl

theorem filter_map_swapLS (p : PosRow → Bool)
    (hp : ∀ r, p (swapLS r) = p r) (l : List PosRow) :
    (l.map swapLS).filter p = (l.filter p).map swapLS := by
  rw [List.filter_map]
  congr 1
  apply List.filter_congr
  intro a _
  exact hp a

theorem optionRows_swap (ps : List PosRow) :
    optionRows (ps.map swapLS) = (optionRows ps).map swapLS :=
  filter_map_swapLS (fun p => p.assetType == AssetType.OPTION)
    (fun _ => rfl) ps

theorem equityRows_swap (ps : List PosRow) :
    equityRows (ps.map swapLS) = (equityRows ps).map swapLS :=
  filter_map_swapLS (fun p => p.assetType == AssetType.EQUITY)
    (fun _ => rfl) ps

theorem optionPositionsFor_swap (ps : List PosRow) (t : List Char)
    (ct : ContractType) :
    optionPositionsFor (ps.map swapLS) t ct =
      (optionPositionsFor ps t ct).map (List.map swapLS) := by
  simp only [optionPositionsFor]
  rw [optionRows_swap,
    filter_map_swapLS (fun p => p.underlying == t) (fun _ => rfl),
    isEmpty_map]
  by_cases h : ((optionRows ps).filter fun p => p.underlying == t).isEmpty
  · rw [if_pos h, if_pos h]
    rfl
  · rw [if_neg h, if_neg h,
      filter_map_swapLS (fun p => p.contract_type == some ct) (fun _ => rfl)]
    rfl

theorem sharesPositionsFor_swap (ps : List PosRow) (t : List Char) :
    sharesPositionsFor (ps.map swapLS) t =
      (sharesPositionsFor ps t).map (List.map swapLS) := by
  simp only [sharesPositionsFor]
  rw [equityRows_swap,
    filter_map_swapLS (fun p => p.underlying == t) (fun _ => rfl),
    isEmpty_map]
  by_cases h : ((equityRows ps).filter fun p => p.underlying == t).isEmpty
  · rw [if_pos h, if_pos h]
    rfl
  · rw [if_neg h, if_neg h]
    rfl

theorem count_positions_swap (o : Option (List PosRow)) :
    count_positions (o.map (List.map swapLS)) = count_positions o := by
  cases o with
  | none => rfl
  | some l =>
    have hmap : (some l).map (List.map swapLS) = some (l.map swapLS) := rfl
    rw [hmap]
    show (if (l.map swapLS).isEmpty then 0
        else |((l.map swapLS).map PosRow.longQuantity).sum -
          ((l.map swapLS).map PosRow.shortQuantity).sum|) =
      (if l.isEmpty then 0
        else |(l.map PosRow.longQuantity).sum -
          (l.map PosRow.shortQuantity).sum|)
    rw [isEmpty_map]
    by_cases h : l.isEmpty
    · rw [if_pos h, if_pos h]
    · rw [if_neg h, if_neg h, List.map_map, List.map_map]
      have h1 : PosRow.longQuantity ∘ swapLS = PosRow.shortQuantity := rfl
      have h2 : PosRow.shortQuantity ∘ swapLS = PosRow.longQuantity := rfl
      rw [h1, h2, abs_sub_comm]

theorem count_positions_nonneg (o : Option (List PosRow)) :
    0 ≤ count_positions o := by
  cases o with
  | none => exact le_refl 0
  | some l =>
    show 0 ≤ (if l.isEmpty then 0
      else |(l.map PosRow.longQuantity).sum -
        (l.map PosRow.shortQuantity).sum|)
    by_cases h : l.isEmpty
    · rw [if_pos h]
    · rw [if_neg h]
      exact abs_nonneg _

/-- C10: `Ticker.num_shares`, `Ticker.num_calls`, `Ticker.num_puts` are
always non-negative; the underlying `count_positions` is 0 on a missing or
empty frame and otherwise the absolute value of (total long quantity − total
short quantity) of the matching positions; swapping every long quantity with
its short quantity (net-short vs. equally sized net-long) leaves all three
counts unchanged; and the downstream Wheel quantities `net_target_calls`,
`net_target_puts`, `net_target_shares` are computed from exactly these
absolute counts. -/
theorem position_counts_spec :
    (∀ ps t, 0 ≤ Ticker.num_shares ps t ∧ 0 ≤ Ticker.num_calls ps t ∧
      0 ≤ Ticker.num_puts ps t) ∧
    (count_positions none = 0 ∧
      ∀ l : List PosRow, l.isEmpty = true → count_positions (some l) = 0) ∧
    (∀ l : List PosRow, l.isEmpty = false →
      count_positions (some l) =
        |(l.map PosRow.longQuantity).sum -
          (l.map PosRow.shortQuantity).sum|) ∧
    (∀ ps t, Ticker.num_calls (ps.map swapLS) t = Ticker.num_calls ps t ∧
      Ticker.num_puts (ps.map swapLS) t = Ticker.num_puts ps t ∧
      Ticker.num_shares (ps.map swapLS) t = Ticker.num_shares ps t) ∧
    (∀ ps t price close tbp mcp thr today best,
      Wheel.net_target_calls
          (mkWheelState ps t price close tbp mcp thr today best) =
        ratTrunc ((⌊Ticker.num_shares ps t / 100⌋ : ℚ) -
          Ticker.num_calls ps t) ∧
      Wheel.net_target_puts
          (mkWheelState ps t price close tbp mcp thr today best) =
        ratTrunc ((⌊(Wheel.target_shares
            (mkWheelState ps t price close tbp mcp thr today best) : ℚ) /
              100⌋ : ℚ) - Ticker.num_puts ps t) ∧
      Wheel.net_target_shares
          (mkWheelState ps t price close tbp mcp thr today best) =
        ⌊(Wheel.target_shares
            (mkWheelState ps t price close tbp mcp thr today best) : ℚ) -
          Ticker.num_shares ps t - Ticker.num_puts ps t * 100⌋) := by
  refine ⟨?_, ⟨rfl, ?_⟩, ?_, ?_, ?_⟩
  · intro ps t
    exact ⟨count_positions_nonneg _, count_positions_nonneg _,
      count_positions_nonneg _⟩
  · intro l hl
    show (if l.isEmpty then 0
      else |(l.map PosRow.longQuantity).sum -
        (l.map PosRow.shortQuantity).sum|) = 0
    rw [if_pos hl]
  · intro l hl
    show (if l.isEmpty then 0
      else |(l.map PosRow.longQuantity).sum -
        (l.map PosRow.shortQuantity).sum|) =
      |(l.map PosRow.longQuantity).sum - (l.map PosRow.shortQuantity).sum|
    rw [if_neg (by simp [hl])]
  · intro ps t
    refine ⟨?_, ?_, ?_⟩
    · unfold Ticker.num_calls
      rw [optionPositionsFor_swap, count_positions_swap]
    · unfold Ticker.num_puts
      rw [optionPositionsFor_swap, count_positions_swap]
    · unfold Ticker.num_shares
      rw [sharesPositionsFor_swap, count_positions_swap]
  · intro ps t price close tbp mcp thr today best
    exact ⟨rfl, rfl, rfl⟩

/-- Witness for C10 at a one-row net-short equity position: the count of a
3-share short position is 3, unchanged under swapping long and short. -/
theorem position_counts_spec_witness :
    count_positions
        (some [⟨['G', 'M', 'E'], .EQUITY, none, 0, 3⟩]) = 3 ∧
    Ticker.num_shares
        ([⟨['G', 'M', 'E'], .EQUITY, none, 0, 3⟩].map swapLS) ['G', 'M', 'E'] =
      Ticker.num_shares [⟨['G', 'M', 'E'], .EQUITY, none, 0, 3⟩]
        ['G', 'M', 'E'] ∧
    0 ≤ Ticker.num_shares [⟨['G', 'M', 'E'], .EQUITY, none, 0, 3⟩]
        ['G', 'M', 'E'] := by
  refine ⟨?_, (position_counts_spec.2.2.2.1
    [⟨['G', 'M', 'E'], .EQUITY, none, 0, 3⟩] ['G', 'M', 'E']).2.2,
    (position_counts_spec.1
      [⟨['G', 'M', 'E'], .EQUITY, none, 0, 3⟩] ['G', 'M', 'E']).1⟩
  rw [position_counts_spec.2.2.1 [⟨['G', 'M', 'E'], .EQUITY, none, 0, 3⟩] rfl]
  norm_num

/-! ### Condition library (`src/stonkers/commands/wheelie/conditions.py`)

A pandas DataFrame is a list of `Row`s plus its column list; the mutable
object graph is an explicit heap (list) of frames, a Python variable holding
a frame is an index into it.  Python statements translate as:
`df = df.copy()` appends a fresh frame and rebinds the local index;
`df[col] = values` writes through the current index; filtering and
`sort_values` build new frames.  `evaluate`/`best` receive the caller's
index; the claim is that the frame at that index is unchanged afterwards. -/

structure DF where
  cols : List (List Char)
  rows : List Row
  deriving DecidableEq

abbrev Heap := List DF

def Heap.readDF (h : Heap) (r : ℕ) : DF := h.getD r ⟨[], []⟩

def Heap.writeDF (h : Heap) (r : ℕ) (df : DF) : Heap := h.set r df

def rorKey : List Char := ['R', 'o', 'R']
def marketPriceKey : List Char :=
  ['m', 'a', 'r', 'k', 'e', 't', 'P', 'r', 'i', 'c', 'e']
def strikePriceKey : List Char :=
  ['s', 't', 'r', 'i', 'k', 'e', 'P', 'r', 'i', 'c', 'e']
def dteKey : List Char :=
  ['d', 'a', 'y', 's', 'T', 'o', 'E', 'x', 'p', 'i', 'r', 'a', 't', 'i',
   'o', 'n']
def spreadKey : List Char := ['s', 'p', 'r', 'e', 'a', 'd']
def inTheMoneyKey : List Char :=
  ['i', 'n', 'T', 'h', 'e', 'M', 'o', 'n', 'e', 'y']
def deltaKey : List Char := ['d', 'e', 'l', 't', 'a']
def expirationDateKey : List Char :=
  ['e', 'x', 'p', 'i', 'r', 'a', 't', 'i', 'o', 'n', 'D', 'a', 't', 'e']

/-- Column assignment on one row: any previous binding of the key is
replaced. -/
def setCell (row : Row) (k : List Char) (v : ℚ) : Row :=
  (row.filter fun p => !(p.1 == k)) ++ [(k, v)]

/-- `df[k] = vs` (one value per row). -/
def setColVals (df : DF) (k : List Char) (vs : List ℚ) : DF :=
  { cols := if k ∈ df.cols then df.cols else df.cols ++ [k],
    rows := (df.rows.zip vs).map fun p => setCell p.1 k p.2 }

/-- A condition is a pure predicate producing one boolean per row (the
library's conditions never write to their argument: the two that derive a
helper column — rate-of-return and spread — do so on an internal copy). -/
abbrev Cond := DF → List Bool

def zipAnd (a b : List Bool) : List Bool := (a.zip b).map fun p => p.1 && p.2

/-- `combined(df, *conditions)`: vacuously all-true, else the fold of `&`. -/
def combined (df : DF) (conds : List Cond) : List Bool :=
  match conds with
  | [] => df.rows.map fun _ => true
  | c :: cs => cs.foldl (fun acc c' => zipAnd acc (c' df)) (c df)

/-- `days_to_expiration(min_days=7, max_days=60)`; a missing value fails the
`between` comparison. -/
def days_to_expiration_cond (minDays maxDays : ℚ) : Cond := fun df =>
  df.rows.map fun row =>
    match rowGet row dteKey with
    | some d => decide (minDays ≤ d) && decide (d ≤ maxDays)
    | none => false

/-- `spread(value=0.05)`: uses an existing `spread` column, else
`ask - bid` computed on an internal copy. -/
def spread_cond (value : ℚ) : Cond := fun df =>
  if df.cols.contains spreadKey then
    df.rows.map fun row =>
      match rowGet row spreadKey with
      | some s => decide (s < value)
      | none => false
  else
    df.rows.map fun row =>
      match rowGet row askKey, rowGet row bidKey with
      | some a, some b => decide (a - b < value)
      | _, _ => false

/-- `exclude_in_the_money()`: `~df["inTheMoney"]`, the boolean column encoded
as 0/1 cells. -/
def exclude_itm_cond : Cond := fun df =>
  df.rows.map fun row =>
    match rowGet row inTheMoneyKey with
    | some x => decide (x = 0)
    | none => false

/-- `delta(target=0.30, tolerance=0.05)`: `np.isclose(|delta|, target,
atol=tolerance)` with numpy's default relative tolerance `1e-5`. -/
def delta_cond (target tolerance : ℚ) : Cond := fun df =>
  df.rows.map fun row =>
    match rowGet row deltaKey with
    | some d => decide (|(|d| - target)| ≤ tolerance + 1 / 100000 * |target|)
    | none => false

/-- `default()` from the condition library. -/
def defaultConds : List Cond :=
  [days_to_expiration_cond 7 60, spread_cond (1 / 20), exclude_itm_cond,
   delta_cond (3 / 10) (1 / 20)]

def defaultOrderBy : List (List Char × Bool) :=
  [(rorKey, false), (expirationDateKey, true)]

/-- `_add_rate_of_return(options_df)`: returns its argument's index unchanged
when `RoR` is present; otherwise copies the frame, adds `marketPrice`
(per-row Price Rule; `none` = a raised `KeyError`, heap state kept) and
`RoR = marketPrice / (strikePrice - marketPrice)`, and returns the copy's
index. -/
def addRateOfReturn (h : Heap) (r : ℕ) : Except Unit ℕ × Heap :=
  let df := h.readDF r
  if df.cols.contains rorKey then (.ok r, h)
  else
    let rNew := h.length
    let h1 := h ++ [df]
    match df.rows.mapM market_price with
    | none => (.error (), h1)
    | some mps =>
      let df1 := setColVals df marketPriceKey mps
      let h2 := h1.writeDF rNew df1
      match df1.rows.mapM (fun row =>
          match rowGet row marketPriceKey, rowGet row strikePriceKey with
          | some mp, some sp => some (mp / (sp - mp))
          | _, _ => none) with
      | none => (.error (), h2)
      | some rors => (.ok rNew, h2.writeDF rNew (setColVals df1 rorKey rors))

def filterRows (df : DF) (mask : List Bool) : DF :=
  { cols := df.cols,
    rows := ((df.rows.zip mask).filter fun p => p.2).map fun p => p.1 }

/-- Missing values sort first (ascending), mirroring pandas NaN-last
irrelevance for the frame property. -/
def optLT : Option ℚ → Option ℚ → Bool
  | none, some _ => true
  | some a, some b => decide (a < b)
  | _, _ => false

def keyLE (keys : List (List Char × Bool)) (r1 r2 : Row) : Bool :=
  match keys with
  | [] => true
  | (k, asc) :: rest =>
    let v1 := rowGet r1 k
    let v2 := rowGet r2 k
    if optLT v1 v2 then asc
    else if optLT v2 v1 then !asc
    else keyLE rest r1 r2

def insertRow (le : Row → Row → Bool) (r : Row) : List Row → List Row
  | [] => [r]
  | x :: xs => if le r x then r :: x :: xs else x :: insertRow le r xs

def sortRows (le : Row → Row → Bool) : List Row → List Row
  | [] => []
  | x :: xs => insertRow le x (sortRows le xs)

def sortDF (df : DF) (keys : List (List Char × Bool)) : DF :=
  { cols := df.cols, rows := sortRows (keyLE keys) df.rows }

/-- `evaluate(options_df, filter_conditions=None, order_by=None)`: empty
frames are returned as-is (the caller's own index); otherwise the frame is
copied, rate-of-return added if absent (second copy), the combined condition
applied, sort keys restricted to existing columns, and a new filtered/sorted
frame returned. -/
def evaluate (h : Heap) (r : ℕ) (conds : Option (List Cond))
    (orderBy : Option (List (List Char × Bool))) : Except Unit ℕ × Heap :=
  let df := h.readDF r
  if df.rows.isEmpty then (.ok r, h)
  else
    let rc := h.length
    let h1 := h ++ [df]
    let filter_conditions := conds.getD defaultConds
    match addRateOfReturn h1 rc with
    | (.error e, h2) => (.error e, h2)
    | (.ok r2, h2) =>
      let df2 := h2.readDF r2
      let mask := combined df2 filter_conditions
      let ob := (orderBy.getD defaultOrderBy).filter fun p =>
        df2.cols.contains p.1
      let res := sortDF (filterRows df2 mask) ob
      (.ok h2.length, h2 ++ [res])

/-- `best(...)`: the top row of `evaluate(...)`, or `none` if nothing
passes. -/
def best (h : Heap) (r : ℕ) (conds : Option (List Cond))
    (orderBy : Option (List (List Char × Bool))) :
    Except Unit (Option Row) × Heap :=
  match evaluate h r conds orderBy with
  | (.error e, h') => (.error e, h')
  | (.ok r', h') => (.ok (h'.readDF r').rows.head?, h')

theorem readDF_append (h : Heap) (d : DF) {r : ℕ} (hr : r < h.length) :
    Heap.readDF (h ++ [d]) r = Heap.readDF h r := by
  unfold Heap.readDF
  exact List.getD_append _ _ _ _ hr

theorem readDF_set_ne (h : Heap) (r' : ℕ) (df : DF) {r : ℕ} (hne : r' ≠ r) :
    Heap.readDF (Heap.writeDF h r' df) r = Heap.readDF h r := by
  unfold Heap.readDF Heap.writeDF
  rw [List.getD_eq_getElem?_getD, List.getD_eq_getElem?_getD,
    List.getElem?_set_ne hne]

theorem readDF_oob (h : Heap) {r : ℕ} (hr : h.length ≤ r) :
    Heap.readDF h r = ⟨[], []⟩ := by
  unfold Heap.readDF
  exact List.getD_eq_default _ _ hr

theorem rows_nonempty_lt (h : Heap) (r : ℕ)
    (hne : (Heap.readDF h r).rows.isEmpty = false) : r < h.length := by
  by_contra hc
  push_neg at hc
  rw [readDF_oob h hc] at hne
  cases hne

theorem addRateOfReturn_frame (h : Heap) (r rr : ℕ) (hrr : rr < h.length) :
    Heap.readDF (addRateOfReturn h r).2 rr = Heap.readDF h rr := by
  have hne : h.length ≠ rr := Nat.ne_of_gt hrr
  simp only [addRateOfReturn]
  split
  · rfl
  · split
    · exact readDF_append _ _ hrr
    · split
      · rw [readDF_set_ne _ _ _ hne, readDF_append _ _ hrr]
      · rw [readDF_set_ne _ _ _ hne, readDF_set_ne _ _ _ hne,
          readDF_append _ _ hrr]

theorem addRateOfReturn_length (h : Heap) (r : ℕ) :
    h.length ≤ (addRateOfReturn h r).2.length := by
  simp only [addRateOfReturn]
  split
  · exact le_refl _
  · split
    · simp
    · split <;> simp [Heap.writeDF]

/-- C9: `evaluate` and `best` never mutate the options DataFrame they are
given — for every heap and every index `r` handed to them, the frame at `r`
is unchanged after the call (the derived `marketPrice` and `RoR` columns are
added only to an internal copy, never to the argument). -/
theorem evaluate_no_mutation (h : Heap) (r : ℕ) (conds : Option (List Cond))
    (orderBy : Option (List (List Char × Bool))) :
    Heap.readDF (evaluate h r conds orderBy).2 r = Heap.readDF h r ∧
    Heap.readDF (best h r conds orderBy).2 r = Heap.readDF h r := by
  have heval :
      Heap.readDF (evaluate h r conds orderBy).2 r = Heap.readDF h r := by
    simp only [evaluate]
    split
    · rfl
    · rename_i hne
      have hr : r < h.length := by
        apply rows_nonempty_lt
        simpa using hne
      have hr1 : r < (h ++ [Heap.readDF h r]).length := by
        simp
        omega
      split
      · rename_i e h2 heq
        have h2eq : h2 =
            (addRateOfReturn (h ++ [Heap.readDF h r]) h.length).2 := by
          rw [heq]
        rw [h2eq, addRateOfReturn_frame _ _ _ hr1, readDF_append _ _ hr]
      · rename_i r2 h2 heq
        have h2eq : h2 =
            (addRateOfReturn (h ++ [Heap.readDF h r]) h.length).2 := by
          rw [heq]
        have hr2 : r < h2.length := by
          have := addRateOfReturn_length (h ++ [Heap.readDF h r]) h.length
          rw [h2eq]
          omega
        rw [readDF_append _ _ hr2, h2eq,
          addRateOfReturn_frame _ _ _ hr1, readDF_append _ _ hr]
  refine ⟨heval, ?_⟩
  unfold best
  split
  · rename_i e h' heq
    have : h' = (evaluate h r conds orderBy).2 := by rw [heq]
    rw [this, heval]
  · rename_i r' h' heq
    have : h' = (evaluate h r conds orderBy).2 := by rw [heq]
    rw [this, heval]

end Stonkers
